import Mathlib

/-!
Verification of the pair-label evaluation engine of the
`aws3_map_reduce_learning` repository (scripts `analyze_results.py` and
`evaluate_small_experiment.py`).

Path identifiers are modelled as `List Char` (Python strings compared by
code point), scores as `ℚ` (Python floats restricted to the exact
arithmetic actually performed), labels as `Bool` (`true` = label 1).
-/

set_option autoImplicit false

unseal Rat.mul Rat.inv Rat.add Rat.sub

namespace DirtEval

/-- A path identifier: a Python string, modelled as its list of characters. -/
abbrev Path := List Char

/-- The whitespace characters removed by Python's `str.strip()`
(ASCII subset: space, tab, newline, carriage return, vertical tab, form feed). -/
def pySpace (c : Char) : Bool :=
  c = ' ' || c = '\t' || c = '\n' || c = '\r' || c = '\x0b' || c = '\x0c'

/-- Python `str.strip()`: drop leading and trailing whitespace. -/
def pyStrip (s : Path) : Path :=
  (((s.dropWhile pySpace).reverse.dropWhile pySpace)).reverse

/-- Python string `<`: lexicographic comparison by code point, a proper
non-empty string extension of its prefixes. -/
def pyLt : Path → Path → Bool
  | [], [] => false
  | [], _ :: _ => true
  | _ :: _, [] => false
  | a :: as, b :: bs =>
      if a < b then true
      else if b < a then false
      else pyLt as bs

/-- Python `sorted([x, y])` for a two-element list: swap iff the second
element is strictly smaller than the first. -/
def sort2 (x y : Path) : Path × Path :=
  if pyLt y x then (y, x) else (x, y)

/-- `make_key` from `evaluate_small_experiment.py` (lines 68-70):
strip both inputs, sort the two strings, join with a `|` separator. -/
def make_key (path_a path_b : Path) : Path :=
  let p := sort2 (pyStrip path_a) (pyStrip path_b)
  p.1 ++ '|' :: p.2

/-- The inline `make_key` from `analyze_results.py` (lines 58-62), applied
to a row's `path_a` and `path_b` fields: strip both, sort, join with `|`. -/
def make_key_analyze (path_a path_b : Path) : Path :=
  let p1 := pyStrip path_a
  let p2 := pyStrip path_b
  let p := sort2 p1 p2
  p.1 ++ '|' :: p.2

/-- A gold-standard row: two paths and an authoritative 0/1 label
(`true` = 1, i.e. the pair is similar). -/
structure GoldPair where
  path_a : Path
  path_b : Path
  label : Bool
  deriving DecidableEq

/-- A system-output row: two paths and the system's similarity score. -/
structure ScoredPair where
  path_a : Path
  path_b : Path
  score : ℚ
  deriving DecidableEq

/-- A row of the merged dataframe: the gold row's fields, its canonical
key, and the joined score (0 when no system row matched). -/
structure MergedRecord where
  path_a : Path
  path_b : Path
  label : Bool
  key : Path
  score : ℚ
  deriving DecidableEq

/-- Key of a gold row in `analyze_results.py` (`gold_df.apply(make_key)`). -/
def analyzeKeyG (g : GoldPair) : Path := make_key_analyze g.path_a g.path_b

/-- Key of a system row in `analyze_results.py` (`system_df.apply(make_key)`). -/
def analyzeKeyS (s : ScoredPair) : Path := make_key_analyze s.path_a s.path_b

/-- Key of a gold row in `evaluate_small_experiment.py`. -/
def evalKeyG (g : GoldPair) : Path := make_key g.path_a g.path_b

/-- Key of a system row in `evaluate_small_experiment.py`. -/
def evalKeyS (s : ScoredPair) : Path := make_key s.path_a s.path_b

/-- The rows contributed by one gold row to a pandas left merge on `key`:
one row per matching system row (in system order), or a single row with
score `0` when nothing matches (`NaN` then `fillna(0.0)`). -/
def leftJoinRows (kG : GoldPair → Path) (kS : ScoredPair → Path)
    (system : List ScoredPair) (g : GoldPair) : List MergedRecord :=
  match system.filter (fun s => kS s = kG g) with
  | [] => [⟨g.path_a, g.path_b, g.label, kG g, 0⟩]
  | ms => ms.map (fun s => ⟨g.path_a, g.path_b, g.label, kG g, s.score⟩)

/-- pandas `gold.merge(system, on='key', how='left')` followed by
`merged['score'].fillna(0.0)`: left rows in order, each expanded to its
match rows. -/
def leftJoin (kG : GoldPair → Path) (kS : ScoredPair → Path) :
    List GoldPair → List ScoredPair → List MergedRecord
  | [], _ => []
  | g :: gs, system => leftJoinRows kG kS system g ++ leftJoin kG kS gs system

/-- The merge in `analyze_results.py` line 67-68: a plain left merge on
`key` with no de-duplication of the system side. -/
def mergeAnalyze (gold : List GoldPair) (system : List ScoredPair) :
    List MergedRecord :=
  leftJoin analyzeKeyG analyzeKeyS gold system

/-- pandas `drop_duplicates('key')`: keep each system row whose key has
not been seen yet (first occurrence wins). -/
def dropDupByKey : List ScoredPair → List Path → List ScoredPair
  | [], _ => []
  | s :: rest, seen =>
      if evalKeyS s ∈ seen then dropDupByKey rest seen
      else s :: dropDupByKey rest (evalKeyS s :: seen)

/-- The merge in `evaluate_small_experiment.py` lines 100-101:
`gold.merge(system[['key','score']].drop_duplicates('key'), on='key',
how='left')` with `fillna(0.0)`. -/
def mergeEval (gold : List GoldPair) (system : List ScoredPair) :
    List MergedRecord :=
  leftJoin evalKeyG evalKeyS gold (dropDupByKey system [])

/-- The score the spec assigns to a gold row: the score of the first
system row (in system order) with the same canonical key, else `0`. -/
def firstScoreFor (kG : GoldPair → Path) (kS : ScoredPair → Path)
    (system : List ScoredPair) (g : GoldPair) : ℚ :=
  match system.find? (fun s => kS s = kG g) with
  | some s => s.score
  | none => 0

/-! ### Threshold sweep (evaluate_small_experiment.py lines 119-125) -/

/-- Evaluation records: the `(label, score)` columns of the merged frame,
which are all the sweep, curve and stratifier code reads. -/
abbrev Rec := Bool × ℚ

/-- True positives at threshold `t`: gold label 1 and predicted label 1
(`y_pred = (y_scores >= t)`). -/
def tpAt (recs : List Rec) (t : ℚ) : ℕ :=
  recs.countP (fun r => r.1 && decide (t ≤ r.2))

/-- False positives at threshold `t`: gold label 0, predicted 1. -/
def fpAt (recs : List Rec) (t : ℚ) : ℕ :=
  recs.countP (fun r => !r.1 && decide (t ≤ r.2))

/-- False negatives at threshold `t`: gold label 1, predicted 0. -/
def fnAt (recs : List Rec) (t : ℚ) : ℕ :=
  recs.countP (fun r => r.1 && !decide (t ≤ r.2))

/-- Number of gold-positive records (independent of any threshold). -/
def posCount (recs : List Rec) : ℕ := recs.countP (fun r => r.1)

/-- sklearn `precision_score(y_true, y_pred, zero_division=0)`:
`TP/(TP+FP)`, and `0` when there are no positive predictions. -/
def precision_score (recs : List Rec) (t : ℚ) : ℚ :=
  if tpAt recs t + fpAt recs t = 0 then 0
  else (tpAt recs t : ℚ) / ((tpAt recs t : ℚ) + (fpAt recs t : ℚ))

/-- sklearn `recall_score(y_true, y_pred, zero_division=0)`:
`TP/(TP+FN)`, and `0` when there are no actual positives. -/
def recall_score (recs : List Rec) (t : ℚ) : ℚ :=
  if tpAt recs t + fnAt recs t = 0 then 0
  else (tpAt recs t : ℚ) / ((tpAt recs t : ℚ) + (fnAt recs t : ℚ))

/-- sklearn `f1_score(y_true, y_pred, zero_division=0)`: the harmonic
mean `2PR/(P+R)`, and `0` when `P+R = 0`. -/
def f1_score (recs : List Rec) (t : ℚ) : ℚ :=
  let p := precision_score recs t
  let r := recall_score recs t
  if p + r = 0 then 0 else 2 * p * r / (p + r)

/-- The fixed-threshold sweep loop (lines 119-125): one
`(threshold, precision, recall, f1)` row per configured threshold. -/
def sweep (recs : List Rec) (thresholds : List ℚ) : List (ℚ × ℚ × ℚ × ℚ) :=
  thresholds.map (fun t =>
    (t, precision_score recs t, recall_score recs t, f1_score recs t))

/-! ### Precision-recall curve and F1-optimal point
(analyze_results.py lines 73-78, via sklearn `precision_recall_curve`) -/

/-- The distinct score values sorted in decreasing order — the candidate
thresholds scanned by sklearn's `_binary_clf_curve`. -/
def thresholdsDesc (recs : List Rec) : List ℚ :=
  ((recs.map Prod.snd).dedup).insertionSort (fun a b => b ≤ a)

/-- `tps[-1]` in sklearn: the true-positive count at the lowest distinct
score, the divisor of every recall value on the curve. -/
def lastTP (recs : List Rec) : ℕ :=
  tpAt recs ((thresholdsDesc recs).getLastD 0)

/-- The truncation `sl = slice(last_ind, None, -1)` of
`precision_recall_curve`: keep the descending thresholds up to and
including the first one attaining full recall (`tps == tps[-1]`). -/
def takeUntilFull (recs : List Rec) (full : ℕ) : List ℚ → List ℚ
  | [] => []
  | t :: ts => if tpAt recs t = full then [t] else t :: takeUntilFull recs full ts

/-- The thresholds actually returned by `precision_recall_curve`, in the
increasing order of the returned arrays. -/
def curveThresholds (recs : List Rec) : List ℚ :=
  (takeUntilFull recs (lastTP recs) (thresholdsDesc recs)).reverse

/-- Curve precision at a kept threshold: `tps/(tps+fps)` (the denominator
is the number of records scoring at least `t`, never `0` at an observed
score; sklearn maps an empty quotient to `0`, as `ℚ` division does). -/
def curvePrecision (recs : List Rec) (t : ℚ) : ℚ :=
  (tpAt recs t : ℚ) / ((tpAt recs t : ℚ) + (fpAt recs t : ℚ))

/-- Curve recall at a kept threshold: `tps/tps[-1]`. -/
def curveRecall (recs : List Rec) (t : ℚ) : ℚ :=
  (tpAt recs t : ℚ) / (lastTP recs : ℚ)

/-- Line 75 of `analyze_results.py`: the smoothed F1
`2*p*r/(p + r + 1e-10)` at one non-terminal curve point. -/
def curveF1 (recs : List Rec) (t : ℚ) : ℚ :=
  2 * (curvePrecision recs t * curveRecall recs t) /
    (curvePrecision recs t + curveRecall recs t + 1 / 10000000000)

/-- The array `f1_scores` of line 75: the smoothed F1 at every
non-terminal curve point (the terminal `precision=1, recall=0` point has
no threshold and is excluded by the `[:-1]` slices). -/
def f1Scores (recs : List Rec) : List ℚ :=
  (curveThresholds recs).map (curveF1 recs)

/-- `np.argmax`: index of the first occurrence of the maximum. -/
def argmaxQ : List ℚ → ℕ
  | [] => 0
  | [_] => 0
  | x :: y :: rest =>
      let r := argmaxQ (y :: rest)
      if x < (y :: rest).getD r 0 then r + 1 else 0

/-- `best_idx = f1_scores.argmax()` (line 76). -/
def bestIdx (recs : List Rec) : ℕ := argmaxQ (f1Scores recs)

/-- `best_f1 = f1_scores[best_idx]` (line 77). -/
def bestF1 (recs : List Rec) : ℚ := (f1Scores recs).getD (bestIdx recs) 0

/-- `best_thresh = thresholds[best_idx] if best_idx < len(thresholds)
else 0.5` (line 78). -/
def bestThresh (recs : List Rec) : ℚ :=
  if bestIdx recs < (curveThresholds recs).length then
    (curveThresholds recs).getD (bestIdx recs) 0
  else 1 / 2

/-! ### Error stratifier (evaluate_small_experiment.py lines 144-167) -/

/-- pandas `Series.quantile(0.5)` (linear interpolation): the median of
the sorted values — middle element for odd length, average of the two
middle elements for even length. -/
def qmedian (l : List ℚ) : ℚ :=
  let s := l.insertionSort (fun a b => a ≤ b)
  let n := s.length
  if n % 2 = 1 then s.getD ((n - 1) / 2) 0
  else (s.getD (n / 2 - 1) 0 + s.getD (n / 2) 0) / 2

/-- numpy `.mean()`. -/
def meanQ (l : List ℚ) : ℚ := l.sum / (l.length : ℚ)

/-- numpy `.min()` of a non-empty array (junk value `0` on `[]`, a case
the script never reaches because it exits on empty inputs). -/
def minQ : List ℚ → ℚ
  | [] => 0
  | x :: xs => xs.foldl min x

/-- Lines 144-151: `high_thresh` = median score of gold positives
(`0.01` if none), `low_thresh` = median score of gold negatives
(`0.001` if none); if `high_thresh <= low_thresh` both are recomputed
from the global mean/min to force separation. -/
def highLowThresh (recs : List Rec) : ℚ × ℚ :=
  let posScores := (recs.filter (fun r => r.1)).map Prod.snd
  let negScores := (recs.filter (fun r => !r.1)).map Prod.snd
  let scores := recs.map Prod.snd
  let high0 := if posScores.length ≠ 0 then qmedian posScores else 1 / 100
  let low0 := if negScores.length ≠ 0 then qmedian negScores else 1 / 1000
  if high0 ≤ low0 then
    (max (1 / 100) (meanQ scores + 1 / 1000000),
     min (1 / 100) (max 0 (minQ scores)))
  else (high0, low0)

/-- Line 156: `tp = merged[(label == 1) & pred_high]`. -/
def tpBucket (recs : List Rec) : List Rec :=
  recs.filter (fun r => r.1 && decide ((highLowThresh recs).1 ≤ r.2))

/-- Line 158: `fp = merged[(label == 0) & (score > 0)]` (before the
under-population padding of lines 160-165). -/
def fpBucket (recs : List Rec) : List Rec :=
  recs.filter (fun r => !r.1 && decide (0 < r.2))

/-- Line 166: `tn = merged[(label == 0) & pred_low]`. -/
def tnBucket (recs : List Rec) : List Rec :=
  recs.filter (fun r => !r.1 && decide (r.2 ≤ (highLowThresh recs).2))

/-- Line 167: `fn = merged[(label == 1) & pred_low]`. -/
def fnBucket (recs : List Rec) : List Rec :=
  recs.filter (fun r => r.1 && decide (r.2 ≤ (highLowThresh recs).2))

/-! ## Properties of the Python string order and of `strip` -/

theorem pyLt_asymm : ∀ x y : Path, pyLt x y = true → pyLt y x = false := by
  intro x
  induction x with
  | nil => intro y _; cases y <;> rfl
  | cons a as ih =>
      intro y h
      cases y with
      | nil => exact absurd h (by simp [pyLt])
      | cons b bs =>
          simp only [pyLt] at h ⊢
          rcases lt_trichotomy a b with hab | hab | hab
          · simp [hab, not_lt_of_lt hab]
          · subst hab
            simp only [lt_irrefl, if_false] at h ⊢
            exact ih bs h
          · simp [hab, not_lt_of_lt hab] at h

theorem pyLt_eq_of_not_lt : ∀ x y : Path, pyLt x y = false → pyLt y x = false → x = y := by
  intro x
  induction x with
  | nil =>
      intro y h _
      cases y with
      | nil => rfl
      | cons b bs => simp [pyLt] at h
  | cons a as ih =>
      intro y h h'
      cases y with
      | nil => simp [pyLt] at h'
      | cons b bs =>
          simp only [pyLt] at h h'
          rcases lt_trichotomy a b with hab | hab | hab
          · simp [hab] at h
          · subst hab
            simp only [lt_irrefl, if_false] at h h'
            rw [ih bs h h']
          · simp [hab] at h'

theorem sort2_comm (x y : Path) : sort2 x y = sort2 y x := by
  unfold sort2
  by_cases h1 : pyLt y x = true
  · rw [if_pos h1, if_neg (by simp [pyLt_asymm y x h1])]
  · have h1' : pyLt y x = false := by simpa using h1
    rw [if_neg h1]
    by_cases h2 : pyLt x y = true
    · rw [if_pos h2]
    · have h2' : pyLt x y = false := by simpa using h2
      rw [if_neg h2, pyLt_eq_of_not_lt x y h2' h1']

theorem pyStrip_append_left {w : Path} (s : Path)
    (hw : ∀ c ∈ w, pySpace c = true) : pyStrip (w ++ s) = pyStrip s := by
  unfold pyStrip
  rw [List.dropWhile_append_of_pos hw]

theorem dropWhile_all_space {w : Path} (hw : ∀ c ∈ w, pySpace c = true) :
    w.dropWhile pySpace = [] := by
  induction w with
  | nil => rfl
  | cons c cs ih =>
      simp only [List.dropWhile_cons, hw c (List.mem_cons_self c cs), if_true]
      exact ih (fun x hx => hw x (List.mem_cons_of_mem c hx))

theorem pyStrip_append_right {w : Path} (s : Path)
    (hw : ∀ c ∈ w, pySpace c = true) : pyStrip (s ++ w) = pyStrip s := by
  unfold pyStrip
  rw [List.dropWhile_append]
  cases hd : s.dropWhile pySpace with
  | nil => simp [dropWhile_all_space hw]
  | cons u us =>
      simp only [List.isEmpty_cons, if_false, Bool.false_eq_true]
      rw [List.reverse_append]
      rw [List.dropWhile_append_of_pos (by intro c hc; exact hw c (List.mem_reverse.mp hc))]

/-- C10. Refinement equivalence of the two key functions: the inline
`make_key` of `analyze_results.py` computes exactly the same string as
`make_key` of `evaluate_small_experiment.py` on every pair of inputs. -/
theorem make_key_analyze_eq_make_key (a b : Path) :
    make_key_analyze a b = make_key a b := rfl

/-- C5. The canonical key is commutative, and surrounding either input
with whitespace (which `strip` removes) does not change the key. -/
theorem make_key_comm_and_whitespace :
    (∀ a b : Path, make_key a b = make_key b a) ∧
    (∀ (a b w₁ w₂ : Path), (∀ c ∈ w₁, pySpace c = true) →
      (∀ c ∈ w₂, pySpace c = true) →
      make_key (w₁ ++ a ++ w₂) b = make_key a b ∧
      make_key a (w₁ ++ b ++ w₂) = make_key a b) := by
  have hcomm : ∀ a b : Path, make_key a b = make_key b a := by
    intro a b
    unfold make_key
    rw [sort2_comm]
  refine ⟨hcomm, ?_⟩
  intro a b w₁ w₂ h₁ h₂
  have hstrip : ∀ s : Path, pyStrip (w₁ ++ s ++ w₂) = pyStrip s := by
    intro s
    rw [List.append_assoc, pyStrip_append_left _ h₁, pyStrip_append_right _ h₂]
  constructor
  · unfold make_key
    rw [hstrip a]
  · unfold make_key
    rw [hstrip b]

/-- Witness for C5 at concrete inputs: commutativity and whitespace
insensitivity at `a = "x"`, `b = "y"`, `w₁ = " "`, `w₂ = "\t"`. -/
theorem make_key_comm_and_whitespace_witness :
    ([' '] : Path).all pySpace = true ∧
    (['\t'] : Path).all pySpace = true ∧
    make_key ([' '] ++ ['x'] ++ ['\t']) ['y'] = make_key ['x'] ['y'] ∧
    make_key ['x'] ([' '] ++ ['y'] ++ ['\t']) = make_key ['x'] ['y'] :=
  ⟨by decide, by decide,
    (make_key_comm_and_whitespace.2 ['x'] ['y'] [' '] ['\t']
      (by decide) (by decide)).1,
    (make_key_comm_and_whitespace.2 ['x'] ['y'] [' '] ['\t']
      (by decide) (by decide)).2⟩

/-! ## Injectivity of the canonical key (C4) -/

theorem bar_not_mem_pyStrip {x : Path} (h : '|' ∉ x) : '|' ∉ pyStrip x := by
  intro hmem
  apply h
  unfold pyStrip at hmem
  rw [List.mem_reverse] at hmem
  have h1 := (List.dropWhile_sublist (l := (x.dropWhile pySpace).reverse) pySpace).subset hmem
  rw [List.mem_reverse] at h1
  exact (List.dropWhile_sublist pySpace).subset h1

theorem append_bar_inj : ∀ {x₁ x₂ y₁ y₂ : Path}, '|' ∉ x₁ → '|' ∉ x₂ →
    x₁ ++ '|' :: y₁ = x₂ ++ '|' :: y₂ → x₁ = x₂ ∧ y₁ = y₂ := by
  intro x₁
  induction x₁ with
  | nil =>
      intro x₂ y₁ y₂ _ h₂ h
      cases x₂ with
      | nil => simpa using h
      | cons b u =>
          simp only [List.nil_append, List.cons_append, List.cons.injEq] at h
          exact absurd (h.1 ▸ List.mem_cons_self b u) h₂
  | cons a t ih =>
      intro x₂ y₁ y₂ h₁ h₂ h
      cases x₂ with
      | nil =>
          simp only [List.nil_append, List.cons_append, List.cons.injEq] at h
          exact absurd (h.1.symm ▸ List.mem_cons_self a t) h₁
      | cons b u =>
          simp only [List.cons_append, List.cons.injEq] at h
          obtain ⟨hab, htu⟩ := h
          have h₁' : '|' ∉ t := fun hm => h₁ (List.mem_cons_of_mem a hm)
          have h₂' : '|' ∉ u := fun hm => h₂ (List.mem_cons_of_mem b hm)
          obtain ⟨htu', hy⟩ := ih h₁' h₂' htu
          exact ⟨by rw [hab, htu'], hy⟩

theorem sort2_cases (x y : Path) : sort2 x y = (x, y) ∨ sort2 x y = (y, x) := by
  unfold sort2
  by_cases h : pyLt y x = true
  · rw [if_pos h]; exact Or.inr rfl
  · rw [if_neg h]; exact Or.inl rfl

/-- C4 (amended). The key is injective over distinct stripped unordered
pairs provided no input contains the separator character `|`: under that
proviso, unordered pairs that differ after stripping get distinct keys. -/
theorem make_key_inj_of_bar_free (a b c d : Path)
    (ha : '|' ∉ a) (hb : '|' ∉ b) (hc : '|' ∉ c) (hd : '|' ∉ d)
    (hne : ¬((pyStrip a = pyStrip c ∧ pyStrip b = pyStrip d) ∨
             (pyStrip a = pyStrip d ∧ pyStrip b = pyStrip c))) :
    make_key a b ≠ make_key c d := by
  intro heq
  unfold make_key at heq
  have ha' := bar_not_mem_pyStrip ha
  have hb' := bar_not_mem_pyStrip hb
  have hc' := bar_not_mem_pyStrip hc
  have hd' := bar_not_mem_pyStrip hd
  apply hne
  rcases sort2_cases (pyStrip a) (pyStrip b) with h1 | h1 <;>
    rcases sort2_cases (pyStrip c) (pyStrip d) with h2 | h2 <;>
    rw [h1, h2] at heq <;> simp only at heq
  · obtain ⟨e1, e2⟩ := append_bar_inj ha' hc' heq
    exact Or.inl ⟨e1, e2⟩
  · obtain ⟨e1, e2⟩ := append_bar_inj ha' hd' heq
    exact Or.inr ⟨e1, e2⟩
  · obtain ⟨e1, e2⟩ := append_bar_inj hb' hc' heq
    exact Or.inr ⟨e2, e1⟩
  · obtain ⟨e1, e2⟩ := append_bar_inj hb' hd' heq
    exact Or.inl ⟨e2, e1⟩

/-- Counterexample to C4 as stated: over arbitrary strings the key is
NOT injective on distinct unordered pairs — the separator `|` may occur
in a path, and `\x7b"a|b", "c"\x7d` collides with `\x7b"a", "b|c"\x7d`. -/
theorem make_key_collision_counterexample :
    make_key ['a', '|', 'b'] ['c'] = make_key ['a'] ['b', '|', 'c'] ∧
    ¬((pyStrip ['a', '|', 'b'] = pyStrip ['a'] ∧
        pyStrip ['c'] = pyStrip ['b', '|', 'c']) ∨
      (pyStrip ['a', '|', 'b'] = pyStrip ['b', '|', 'c'] ∧
        pyStrip ['c'] = pyStrip ['a'])) := by
  constructor
  · rfl
  · decide

/-- Witness for C4 (amended) at bar-free inputs `"a", "b"` vs `"a", "c"`. -/
theorem make_key_inj_witness :
    (['a'] : Path).all (fun c => !(c = '|')) = true ∧
    (['b'] : Path).all (fun c => !(c = '|')) = true ∧
    (['c'] : Path).all (fun c => !(c = '|')) = true ∧
    make_key ['a'] ['b'] ≠ make_key ['a'] ['c'] :=
  ⟨by decide, by decide, by decide,
    make_key_inj_of_bar_free ['a'] ['b'] ['a'] ['c']
      (by decide) (by decide) (by decide) (by decide) (by decide)⟩

/-! ## The threshold sweep (C6, C7) -/

theorem tpAt_add_fnAt (recs : List Rec) (t : ℚ) :
    tpAt recs t + fnAt recs t = posCount recs := by
  induction recs with
  | nil => rfl
  | cons r rs ih =>
      simp only [tpAt, fnAt, posCount, List.countP_cons] at ih ⊢
      cases hr : r.1 <;> cases hd : decide (t ≤ r.2) <;> simp [hr, hd] <;> omega

theorem tpAt_anti (recs : List Rec) {t₁ t₂ : ℚ} (h : t₁ ≤ t₂) :
    tpAt recs t₂ ≤ tpAt recs t₁ := by
  apply List.countP_mono_left
  intro r _ hr
  simp only [Bool.and_eq_true, decide_eq_true_eq] at hr ⊢
  exact ⟨hr.1, le_trans h hr.2⟩

/-- C6. The sweep is a total function: it returns one point per
configured threshold, every point uses the prediction rule
`score ≥ t`, precision is 0 when there are no positive predictions,
recall is 0 when there are no actual positives, and F1 is 0 when both
precision and recall are 0 — no degenerate input raises. -/
theorem sweep_total_and_zero_conventions (recs : List Rec)
    (thresholds : List ℚ) (_hne : recs ≠ []) :
    (sweep recs thresholds).length = thresholds.length ∧
    ∀ t ∈ thresholds,
      (t, precision_score recs t, recall_score recs t, f1_score recs t) ∈
        sweep recs thresholds ∧
      (tpAt recs t + fpAt recs t = 0 → precision_score recs t = 0) ∧
      (tpAt recs t + fnAt recs t = 0 → recall_score recs t = 0) ∧
      (precision_score recs t = 0 → recall_score recs t = 0 →
        f1_score recs t = 0) := by
  refine ⟨by simp [sweep], ?_⟩
  intro t ht
  refine ⟨List.mem_map_of_mem _ ht, ?_, ?_, ?_⟩
  · intro h0; simp [precision_score, h0]
  · intro h0; simp [recall_score, h0]
  · intro hp hr
    simp only [f1_score, hp, hr, add_zero]
    norm_num

/-- Witness for C6 at a concrete record list and threshold list. -/
theorem sweep_total_witness :
    ([((true : Bool), (1 : ℚ))] ≠ ([] : List Rec)) ∧
    ((sweep [((true : Bool), (1 : ℚ))] [1/2]).length = [(1 : ℚ)/2].length ∧
     ∀ t ∈ [(1 : ℚ)/2],
       (t, precision_score [((true : Bool), (1 : ℚ))] t,
         recall_score [((true : Bool), (1 : ℚ))] t,
         f1_score [((true : Bool), (1 : ℚ))] t) ∈
           sweep [((true : Bool), (1 : ℚ))] [1/2] ∧
       (tpAt [((true : Bool), (1 : ℚ))] t + fpAt [((true : Bool), (1 : ℚ))] t = 0 →
         precision_score [((true : Bool), (1 : ℚ))] t = 0) ∧
       (tpAt [((true : Bool), (1 : ℚ))] t + fnAt [((true : Bool), (1 : ℚ))] t = 0 →
         recall_score [((true : Bool), (1 : ℚ))] t = 0) ∧
       (precision_score [((true : Bool), (1 : ℚ))] t = 0 →
         recall_score [((true : Bool), (1 : ℚ))] t = 0 →
         f1_score [((true : Bool), (1 : ℚ))] t = 0)) :=
  ⟨by decide, sweep_total_and_zero_conventions _ _ (by decide)⟩

/-- C7. Recall is monotone in the threshold: lowering the threshold
never lowers recall, both for the fixed-threshold sweep's
`recall_score` and for the curve's recall values. -/
theorem recall_antitone (recs : List Rec) (t₁ t₂ : ℚ) (h : t₁ ≤ t₂) :
    recall_score recs t₂ ≤ recall_score recs t₁ ∧
    curveRecall recs t₂ ≤ curveRecall recs t₁ := by
  constructor
  · by_cases hP : posCount recs = 0
    · have hc1 : tpAt recs t₁ + fnAt recs t₁ = 0 := by rw [tpAt_add_fnAt]; exact hP
      have hc2 : tpAt recs t₂ + fnAt recs t₂ = 0 := by rw [tpAt_add_fnAt]; exact hP
      rw [recall_score, recall_score, if_pos hc2, if_pos hc1]
    · have hc1 : ¬(tpAt recs t₁ + fnAt recs t₁ = 0) := by rw [tpAt_add_fnAt]; exact hP
      have hc2 : ¬(tpAt recs t₂ + fnAt recs t₂ = 0) := by rw [tpAt_add_fnAt]; exact hP
      rw [recall_score, recall_score, if_neg hc2, if_neg hc1]
      have hcast : ∀ t : ℚ, (tpAt recs t : ℚ) + (fnAt recs t : ℚ) = (posCount recs : ℚ) := by
        intro t
        rw [← Nat.cast_add, tpAt_add_fnAt]
      rw [hcast t₁, hcast t₂, div_eq_mul_inv, div_eq_mul_inv]
      apply mul_le_mul_of_nonneg_right
      · exact_mod_cast tpAt_anti recs h
      · exact inv_nonneg.mpr (Nat.cast_nonneg _)
  · unfold curveRecall
    rw [div_eq_mul_inv, div_eq_mul_inv]
    apply mul_le_mul_of_nonneg_right
    · exact_mod_cast tpAt_anti recs h
    · exact inv_nonneg.mpr (Nat.cast_nonneg _)

/-- Witness for C7 at a concrete record list and threshold pair. -/
theorem recall_antitone_witness :
    ((1 : ℚ)/4 ≤ (3 : ℚ)/4) ∧
    (recall_score [((true : Bool), (1 : ℚ)/2)] (3/4) ≤
      recall_score [((true : Bool), (1 : ℚ)/2)] (1/4) ∧
     curveRecall [((true : Bool), (1 : ℚ)/2)] (3/4) ≤
      curveRecall [((true : Bool), (1 : ℚ)/2)] (1/4)) :=
  ⟨by norm_num, recall_antitone _ _ _ (by norm_num)⟩

/-! ## The error stratifier (C8, C9) -/

theorem foldl_min_le_init (l : List ℚ) : ∀ a : ℚ, l.foldl min a ≤ a := by
  induction l with
  | nil => intro a; exact le_refl a
  | cons x xs ih =>
      intro a
      calc (x :: xs).foldl min a = xs.foldl min (min a x) := rfl
        _ ≤ min a x := ih (min a x)
        _ ≤ a := min_le_left a x

theorem foldl_min_le_mem (l : List ℚ) :
    ∀ (a x : ℚ), x ∈ l → l.foldl min a ≤ x := by
  induction l with
  | nil => intro a x hx; cases hx
  | cons y ys ih =>
      intro a x hx
      rcases List.mem_cons.mp hx with rfl | hx'
      · calc (x :: ys).foldl min a = ys.foldl min (min a x) := rfl
          _ ≤ min a x := foldl_min_le_init ys (min a x)
          _ ≤ x := min_le_right a x
      · exact ih (min a y) x hx'

theorem minQ_le_mem (l : List ℚ) (x : ℚ) (hx : x ∈ l) : minQ l ≤ x := by
  cases l with
  | nil => cases hx
  | cons a xs =>
      rcases List.mem_cons.mp hx with rfl | hx'
      · exact foldl_min_le_init xs x
      · exact foldl_min_le_mem xs a x hx'

theorem minQ_le_meanQ (l : List ℚ) (h : l ≠ []) : minQ l ≤ meanQ l := by
  have hlen : 0 < (l.length : ℚ) := by
    have := List.length_pos.mpr h
    exact_mod_cast this
  rw [meanQ, le_div_iff₀ hlen]
  have hsum : l.length • minQ l ≤ l.sum :=
    List.card_nsmul_le_sum l (minQ l) (fun x hx => minQ_le_mem l x hx)
  rw [nsmul_eq_mul] at hsum
  linarith

/-- The net effect of lines 144-151: the final thresholds are strictly
separated. Shared between C8 and the TP and FN disjointness facts of C9. -/
theorem highLow_sep (recs : List Rec) (h : recs ≠ []) :
    (highLowThresh recs).2 < (highLowThresh recs).1 := by
  have hscores : recs.map Prod.snd ≠ [] := by
    simpa using h
  have hdef : highLowThresh recs =
      if (if ((recs.filter (fun r => r.1)).map Prod.snd).length ≠ 0 then
            qmedian ((recs.filter (fun r => r.1)).map Prod.snd) else 1 / 100) ≤
          (if ((recs.filter (fun r => !r.1)).map Prod.snd).length ≠ 0 then
            qmedian ((recs.filter (fun r => !r.1)).map Prod.snd) else 1 / 1000) then
        (max (1 / 100) (meanQ (recs.map Prod.snd) + 1 / 1000000),
         min (1 / 100) (max 0 (minQ (recs.map Prod.snd))))
      else
        ((if ((recs.filter (fun r => r.1)).map Prod.snd).length ≠ 0 then
            qmedian ((recs.filter (fun r => r.1)).map Prod.snd) else 1 / 100),
         (if ((recs.filter (fun r => !r.1)).map Prod.snd).length ≠ 0 then
            qmedian ((recs.filter (fun r => !r.1)).map Prod.snd) else 1 / 1000)) := rfl
  rw [hdef]
  by_cases hc : (if ((recs.filter (fun r => r.1)).map Prod.snd).length ≠ 0 then
        qmedian ((recs.filter (fun r => r.1)).map Prod.snd) else 1 / 100) ≤
      (if ((recs.filter (fun r => !r.1)).map Prod.snd).length ≠ 0 then
        qmedian ((recs.filter (fun r => !r.1)).map Prod.snd) else 1 / 1000)
  · rw [if_pos hc]
    show min ((1:ℚ) / 100) (max 0 (minQ (recs.map Prod.snd))) <
      max ((1:ℚ) / 100) (meanQ (recs.map Prod.snd) + 1 / 1000000)
    set mn := minQ (recs.map Prod.snd) with hmn
    set m := meanQ (recs.map Prod.snd) with hm
    have hmean : mn ≤ m := minQ_le_meanQ _ hscores
    by_cases hlo : max 0 mn < 1/100
    · calc min ((1:ℚ)/100) (max 0 mn) ≤ max 0 mn := min_le_right _ _
        _ < 1/100 := hlo
        _ ≤ max (1/100) (m + 1/1000000) := le_max_left _ _
    · push_neg at hlo
      have hmn' : (1:ℚ)/100 ≤ mn := by
        rcases max_cases (0 : ℚ) mn with ⟨hcc, _⟩ | ⟨hcc, _⟩
        · rw [hcc] at hlo; linarith
        · rw [hcc] at hlo; exact hlo
      have h1 : min ((1:ℚ)/100) (max 0 mn) ≤ 1/100 := min_le_left _ _
      have h2 : m + 1/1000000 ≤ max ((1:ℚ)/100) (m + 1/1000000) := le_max_right _ _
      linarith
  · rw [if_neg hc]
    exact lt_of_not_le hc

/-- C8. The stratifier's safety correction forces separation: with at
least one merged record, the final thresholds always satisfy
`low_thresh < high_thresh`, whether or not the recomputation branch of
lines 149-151 is taken. -/
theorem stratifier_thresholds_separated (recs : List Rec) (h : recs ≠ []) :
    (highLowThresh recs).2 < (highLowThresh recs).1 :=
  highLow_sep recs h

/-- Witness for C8 at a concrete one-record input. -/
theorem stratifier_thresholds_separated_witness :
    ([((true : Bool), (1 : ℚ))] ≠ ([] : List Rec)) ∧
    (highLowThresh [((true : Bool), (1 : ℚ))]).2 <
      (highLowThresh [((true : Bool), (1 : ℚ))]).1 :=
  ⟨by decide, stratifier_thresholds_separated _ (by decide)⟩

/-- C9 (amended). Bucket disjointness, except for the FP/TN pair: the
TP bucket is disjoint from FP, TN and FN, and the FN bucket is disjoint
from FP and TN; but FP and TN can overlap (a gold-negative record with
`0 < score ≤ low_thresh` lands in both). -/
theorem buckets_disjoint_except_fp_tn (recs : List Rec) (h : recs ≠ [])
    (r : Rec) :
    ¬(r ∈ tpBucket recs ∧ r ∈ fpBucket recs) ∧
    ¬(r ∈ tpBucket recs ∧ r ∈ tnBucket recs) ∧
    ¬(r ∈ tpBucket recs ∧ r ∈ fnBucket recs) ∧
    ¬(r ∈ fpBucket recs ∧ r ∈ fnBucket recs) ∧
    ¬(r ∈ tnBucket recs ∧ r ∈ fnBucket recs) := by
  have hsep := highLow_sep recs h
  refine ⟨?_, ?_, ?_, ?_, ?_⟩ <;> rintro ⟨h1, h2⟩ <;>
    simp only [tpBucket, fpBucket, tnBucket, fnBucket, List.mem_filter,
      Bool.and_eq_true, Bool.not_eq_true', decide_eq_true_eq] at h1 h2
  · exact absurd h1.2.1 (by simp [h2.2.1])
  · exact absurd h1.2.1 (by simp [h2.2.1])
  · exact absurd hsep (not_lt.mpr (le_trans h1.2.2 h2.2.2))
  · exact absurd h1.2.1 (by simp [h2.2.1])
  · exact absurd h1.2.1 (by simp [h2.2.1])

/-- The record list refuting full pairwise disjointness: one gold
positive scoring 1, two gold negatives scoring 0.05 and 0.03. -/
def recsOverlap : List Rec := [(true, 1), (false, 1/20), (false, 3/100)]

/-- Counterexample to C9 as stated: the four buckets are NOT pairwise
disjoint — with `low_thresh = 0.04` the gold-negative record scoring
0.03 is simultaneously a false positive (score > 0) and a true negative
(score ≤ low_thresh). -/
theorem buckets_overlap_counterexample :
    ((false : Bool), (3 : ℚ)/100) ∈ fpBucket recsOverlap ∧
    ((false : Bool), (3 : ℚ)/100) ∈ tnBucket recsOverlap := by
  constructor <;> decide

/-- Witness for C9 (amended) at the same concrete record list. -/
theorem buckets_disjoint_witness :
    (recsOverlap ≠ ([] : List Rec)) ∧
    (¬(((true : Bool), (1 : ℚ)) ∈ tpBucket recsOverlap ∧
        ((true : Bool), (1 : ℚ)) ∈ fpBucket recsOverlap) ∧
     ¬(((true : Bool), (1 : ℚ)) ∈ tpBucket recsOverlap ∧
        ((true : Bool), (1 : ℚ)) ∈ tnBucket recsOverlap) ∧
     ¬(((true : Bool), (1 : ℚ)) ∈ tpBucket recsOverlap ∧
        ((true : Bool), (1 : ℚ)) ∈ fnBucket recsOverlap) ∧
     ¬(((true : Bool), (1 : ℚ)) ∈ fpBucket recsOverlap ∧
        ((true : Bool), (1 : ℚ)) ∈ fnBucket recsOverlap) ∧
     ¬(((true : Bool), (1 : ℚ)) ∈ tnBucket recsOverlap ∧
        ((true : Bool), (1 : ℚ)) ∈ fnBucket recsOverlap)) :=
  ⟨by decide, buckets_disjoint_except_fp_tn recsOverlap (by decide) (true, 1)⟩

/-! ## The record merge (C2, C3) -/

theorem find?_eq_head?_filter {α : Type} (p : α → Bool) (l : List α) :
    l.find? p = (l.filter p).head? := by
  induction l with
  | nil => rfl
  | cons a t ih =>
      by_cases h : p a
      · simp [List.find?_cons_of_pos _ h, List.filter_cons, h]
      · simp only [List.find?_cons_of_neg _ h, List.filter_cons]
        rw [if_neg (by simpa using h)]
        exact ih

theorem filter_key_len_le_one (kS : ScoredPair → Path) (l : List ScoredPair)
    (h : (l.map kS).Nodup) (k : Path) :
    (l.filter (fun s => kS s = k)).length ≤ 1 := by
  induction l with
  | nil => simp
  | cons s t ih =>
      simp only [List.map_cons, List.nodup_cons] at h
      obtain ⟨hs, ht⟩ := h
      simp only [List.filter_cons]
      by_cases hk : kS s = k
      · rw [if_pos (by simpa using hk)]
        have hnil : t.filter (fun s' => kS s' = k) = [] := by
          rw [List.filter_eq_nil_iff]
          intro s' hmem hs'
          apply hs
          rw [decide_eq_true_eq] at hs'
          rw [← hk] at hs'
          exact hs' ▸ List.mem_map_of_mem kS hmem
        simp [hnil]
      · rw [if_neg (by simpa using hk)]
        exact ih ht

theorem leftJoinRows_eq_single (kG : GoldPair → Path) (kS : ScoredPair → Path)
    (sys : List ScoredPair) (g : GoldPair) (h : (sys.map kS).Nodup) :
    leftJoinRows kG kS sys g =
      [⟨g.path_a, g.path_b, g.label, kG g, firstScoreFor kG kS sys g⟩] := by
  have hfind := find?_eq_head?_filter (fun s => kS s = kG g) sys
  have hlen := filter_key_len_le_one kS sys h (kG g)
  unfold leftJoinRows firstScoreFor
  cases hf : sys.filter (fun s => kS s = kG g) with
  | nil =>
      rw [hfind, hf]
      rfl
  | cons s rest =>
      cases rest with
      | nil =>
          rw [hfind, hf]
          rfl
      | cons s' rest' =>
          rw [hf] at hlen
          simp at hlen

theorem leftJoin_eq_map (kG : GoldPair → Path) (kS : ScoredPair → Path)
    (gold : List GoldPair) (sys : List ScoredPair) (h : (sys.map kS).Nodup) :
    leftJoin kG kS gold sys = gold.map (fun g =>
      ⟨g.path_a, g.path_b, g.label, kG g, firstScoreFor kG kS sys g⟩) := by
  induction gold with
  | nil => rfl
  | cons g gs ih =>
      show leftJoinRows kG kS sys g ++ leftJoin kG kS gs sys = _
      rw [leftJoinRows_eq_single kG kS sys g h, ih, List.map_cons,
        List.singleton_append]

theorem dropDup_keys_fresh_and_nodup : ∀ (l : List ScoredPair) (seen : List Path),
    (∀ k ∈ (dropDupByKey l seen).map evalKeyS, k ∉ seen) ∧
    ((dropDupByKey l seen).map evalKeyS).Nodup := by
  intro l
  induction l with
  | nil => intro seen; exact ⟨by simp [dropDupByKey], by simp [dropDupByKey]⟩
  | cons s t ih =>
      intro seen
      have hstep : dropDupByKey (s :: t) seen =
          if evalKeyS s ∈ seen then dropDupByKey t seen
          else s :: dropDupByKey t (evalKeyS s :: seen) := rfl
      by_cases hmem : evalKeyS s ∈ seen
      · rw [hstep, if_pos hmem]
        exact ih seen
      · rw [hstep, if_neg hmem, List.map_cons]
        obtain ⟨ihf, ihn⟩ := ih (evalKeyS s :: seen)
        constructor
        · intro k hk
          rcases List.mem_cons.mp hk with rfl | hk'
          · exact hmem
          · intro hks
            exact ihf k hk' (List.mem_cons_of_mem _ hks)
        · rw [List.nodup_cons]
          exact ⟨fun hks => ihf _ hks (List.mem_cons_self _ _), ihn⟩

theorem find?_dropDup (k : Path) : ∀ (l : List ScoredPair) (seen : List Path),
    k ∉ seen →
    (dropDupByKey l seen).find? (fun s => evalKeyS s = k) =
      l.find? (fun s => evalKeyS s = k) := by
  intro l
  induction l with
  | nil => intro seen _; rfl
  | cons s t ih =>
      intro seen hk
      by_cases hmem : evalKeyS s ∈ seen
      · have hne : ¬(evalKeyS s = k) := fun he => hk (he ▸ hmem)
        show (if evalKeyS s ∈ seen then dropDupByKey t seen
            else s :: dropDupByKey t (evalKeyS s :: seen)).find? _ = _
        rw [if_pos hmem, List.find?_cons_of_neg _ (by simpa using hne)]
        exact ih seen hk
      · show (if evalKeyS s ∈ seen then dropDupByKey t seen
            else s :: dropDupByKey t (evalKeyS s :: seen)).find? _ = _
        rw [if_neg hmem]
        by_cases he : evalKeyS s = k
        · rw [List.find?_cons_of_pos _ (by simpa using he),
            List.find?_cons_of_pos _ (by simpa using he)]
        · rw [List.find?_cons_of_neg _ (by simpa using he),
            List.find?_cons_of_neg _ (by simpa using he)]
          apply ih
          intro hk'
          rcases List.mem_cons.mp hk' with h' | h'
          · exact he h'.symm
          · exact hk h'

theorem firstScoreFor_dropDup (sys : List ScoredPair) (g : GoldPair) :
    firstScoreFor evalKeyG evalKeyS (dropDupByKey sys []) g =
      firstScoreFor evalKeyG evalKeyS sys g := by
  unfold firstScoreFor
  rw [find?_dropDup (evalKeyG g) sys [] (List.not_mem_nil _)]

/-- C2 (amended). Merge completeness: the merge of
`evaluate_small_experiment.py` (which de-duplicates system keys first)
returns exactly one record per gold pair for ALL inputs; the plain merge
of `analyze_results.py` does so only when the system's canonical keys
are duplicate-free. -/
theorem merge_completeness_amended :
    (∀ (gold : List GoldPair) (system : List ScoredPair),
      (mergeEval gold system).length = gold.length ∧
      (mergeEval gold system).map MergedRecord.label = gold.map GoldPair.label) ∧
    (∀ (gold : List GoldPair) (system : List ScoredPair),
      (system.map analyzeKeyS).Nodup →
      (mergeAnalyze gold system).length = gold.length ∧
      (mergeAnalyze gold system).map MergedRecord.label =
        gold.map GoldPair.label) := by
  constructor
  · intro gold system
    unfold mergeEval
    rw [leftJoin_eq_map evalKeyG evalKeyS gold _
      (dropDup_keys_fresh_and_nodup system []).2]
    exact ⟨List.length_map _ _, by rw [List.map_map]; rfl⟩
  · intro gold system h
    unfold mergeAnalyze
    rw [leftJoin_eq_map analyzeKeyG analyzeKeyS gold system h]
    exact ⟨List.length_map _ _, by rw [List.map_map]; rfl⟩

/-- The one-pair gold set and the duplicate-key system output that break
the plain merge of `analyze_results.py`: both system rows canonicalize
to the key of the single gold pair. -/
def goldDup : List GoldPair := [⟨['a'], ['b'], true⟩]

/-- System output with two rows for the same unordered pair (scores 1
and 2). -/
def sysDup : List ScoredPair := [⟨['a'], ['b'], 1⟩, ⟨['b'], ['a'], 2⟩]

/-- Counterexample to C2 as stated: with duplicate canonical keys in the
system output, the merge of `analyze_results.py` returns 2 records for
1 gold pair. -/
theorem merge_completeness_counterexample :
    (mergeAnalyze goldDup sysDup).length = 2 ∧ goldDup.length = 1 := by
  constructor <;> rfl

/-- Witness for C2 (amended): the de-duplicating merge keeps cardinality
even on the duplicate-key system output, and the plain merge keeps it on
a duplicate-free system output. -/
theorem merge_completeness_witness :
    ((mergeEval goldDup sysDup).length = goldDup.length ∧
     (mergeEval goldDup sysDup).map MergedRecord.label =
       goldDup.map GoldPair.label) ∧
    (([⟨['a'], ['b'], (1 : ℚ)⟩] : List ScoredPair).map analyzeKeyS).Nodup ∧
    ((mergeAnalyze goldDup [⟨['a'], ['b'], (1 : ℚ)⟩]).length = goldDup.length ∧
     (mergeAnalyze goldDup [⟨['a'], ['b'], (1 : ℚ)⟩]).map MergedRecord.label =
       goldDup.map GoldPair.label) :=
  ⟨merge_completeness_amended.1 goldDup sysDup, by decide,
    merge_completeness_amended.2 goldDup [⟨['a'], ['b'], (1 : ℚ)⟩] (by decide)⟩

/-- C3 (amended). First-occurrence score law: in
`evaluate_small_experiment.py` every merged record carries the score of
the first system row with its key (`0` when none) for ALL inputs; in
`analyze_results.py` the same holds provided the system's canonical keys
are duplicate-free. -/
theorem merge_score_first_occurrence_amended :
    (∀ (gold : List GoldPair) (system : List ScoredPair),
      mergeEval gold system = gold.map (fun g =>
        ⟨g.path_a, g.path_b, g.label, evalKeyG g,
          firstScoreFor evalKeyG evalKeyS system g⟩)) ∧
    (∀ (gold : List GoldPair) (system : List ScoredPair),
      (system.map analyzeKeyS).Nodup →
      mergeAnalyze gold system = gold.map (fun g =>
        ⟨g.path_a, g.path_b, g.label, analyzeKeyG g,
          firstScoreFor analyzeKeyG analyzeKeyS system g⟩)) := by
  constructor
  · intro gold system
    unfold mergeEval
    rw [leftJoin_eq_map evalKeyG evalKeyS gold _
      (dropDup_keys_fresh_and_nodup system []).2]
    apply List.map_congr_left
    intro g _
    rw [firstScoreFor_dropDup]
  · intro gold system h
    exact leftJoin_eq_map analyzeKeyG analyzeKeyS gold system h

/-- Counterexample to C3 as stated: under the plain merge of
`analyze_results.py` with duplicate system keys, the single gold pair
produces two merged records with scores 1 and 2, so the second record's
score differs from the first-occurring matching score 1. -/
theorem merge_score_counterexample :
    (mergeAnalyze goldDup sysDup).map MergedRecord.score = [1, 2] ∧
    firstScoreFor analyzeKeyG analyzeKeyS sysDup ⟨['a'], ['b'], true⟩ = 1 ∧
    ((1 : ℚ) ≠ 2) := by
  refine ⟨rfl, rfl, by norm_num⟩

/-- Witness for C3 (amended) on concrete inputs: the de-duplicating
merge takes the first-occurrence score 1 on the duplicate-key system
output, and the plain merge agrees on a duplicate-free system output. -/
theorem merge_score_first_occurrence_witness :
    (mergeEval goldDup sysDup = goldDup.map (fun g =>
      ⟨g.path_a, g.path_b, g.label, evalKeyG g,
        firstScoreFor evalKeyG evalKeyS sysDup g⟩)) ∧
    (([⟨['b'], ['a'], (2 : ℚ)⟩] : List ScoredPair).map analyzeKeyS).Nodup ∧
    (mergeAnalyze goldDup [⟨['b'], ['a'], (2 : ℚ)⟩] = goldDup.map (fun g =>
      ⟨g.path_a, g.path_b, g.label, analyzeKeyG g,
        firstScoreFor analyzeKeyG analyzeKeyS [⟨['b'], ['a'], (2 : ℚ)⟩] g⟩)) :=
  ⟨merge_score_first_occurrence_amended.1 goldDup sysDup, by decide,
    merge_score_first_occurrence_amended.2 goldDup [⟨['b'], ['a'], (2 : ℚ)⟩]
      (by decide)⟩

/-! ## The F1-optimal operating point (C1) -/

theorem argmaxQ_lt_length : ∀ l : List ℚ, l ≠ [] → argmaxQ l < l.length := by
  intro l
  induction l with
  | nil => intro h; exact absurd rfl h
  | cons x xs ih =>
      intro _
      cases xs with
      | nil => simp [argmaxQ]
      | cons y rest =>
          have hlt := ih (by simp)
          simp only [List.length_cons] at hlt
          by_cases hx : x < (y :: rest).getD (argmaxQ (y :: rest)) 0
          · simp only [argmaxQ, if_pos hx, List.length_cons]
            omega
          · simp only [argmaxQ, if_neg hx, List.length_cons]
            omega

theorem getD_le_getD_argmaxQ : ∀ (l : List ℚ) (j : ℕ), j < l.length →
    l.getD j 0 ≤ l.getD (argmaxQ l) 0 := by
  intro l
  induction l with
  | nil => intro j hj; simp at hj
  | cons x xs ih =>
      intro j hj
      cases xs with
      | nil =>
          have hj0 : j = 0 := by simpa using Nat.lt_one_iff.mp (by simpa using hj)
          subst hj0
          simp [argmaxQ]
      | cons y rest =>
          by_cases hx : x < (y :: rest).getD (argmaxQ (y :: rest)) 0
          · simp only [argmaxQ, if_pos hx]
            cases j with
            | zero => simpa using le_of_lt hx
            | succ k =>
                have hk : k < (y :: rest).length := by
                  simpa [Nat.succ_lt_succ_iff] using hj
                simpa using ih k hk
          · push_neg at hx
            simp only [argmaxQ, if_neg (not_lt.mpr hx)]
            cases j with
            | zero => simp
            | succ k =>
                have hk : k < (y :: rest).length := by
                  simpa [Nat.succ_lt_succ_iff] using hj
                calc (x :: y :: rest).getD (k + 1) 0
                    = (y :: rest).getD k 0 := by simp
                  _ ≤ (y :: rest).getD (argmaxQ (y :: rest)) 0 := ih k hk
                  _ ≤ x := hx
                  _ = (x :: y :: rest).getD 0 0 := by simp

theorem getD_lt_of_lt_argmaxQ : ∀ (l : List ℚ) (j : ℕ), j < argmaxQ l →
    l.getD j 0 < l.getD (argmaxQ l) 0 := by
  intro l
  induction l with
  | nil => intro j hj; simp [argmaxQ] at hj
  | cons x xs ih =>
      intro j hj
      cases xs with
      | nil => simp [argmaxQ] at hj
      | cons y rest =>
          by_cases hx : x < (y :: rest).getD (argmaxQ (y :: rest)) 0
          · simp only [argmaxQ, if_pos hx] at hj ⊢
            cases j with
            | zero => simpa using hx
            | succ k =>
                have hk : k < argmaxQ (y :: rest) := by omega
                simpa using ih k hk
          · simp only [argmaxQ, if_neg hx] at hj
            omega

theorem thresholdsDesc_sorted_gt (recs : List Rec) :
    (thresholdsDesc recs).Pairwise (· > ·) := by
  have hs : (thresholdsDesc recs).Pairwise (fun a b => b ≤ a) := by
    haveI : IsTotal ℚ (fun a b => b ≤ a) := ⟨fun a b => (le_total b a).imp id id⟩
    haveI : IsTrans ℚ (fun a b => b ≤ a) := ⟨fun _ _ _ hab hbc => le_trans hbc hab⟩
    exact List.sorted_insertionSort _ _
  have hn : (thresholdsDesc recs).Pairwise (fun a b => a ≠ b) := by
    have hperm := List.perm_insertionSort (fun a b => b ≤ a)
      ((recs.map Prod.snd).dedup)
    exact hperm.symm.nodup (List.nodup_dedup _)
  exact (hs.and hn).imp (fun h => lt_of_le_of_ne h.1 (Ne.symm h.2))

theorem takeUntilFull_eq_take (recs : List Rec) (full : ℕ) :
    ∀ ts : List ℚ, ∃ k, takeUntilFull recs full ts = ts.take k := by
  intro ts
  induction ts with
  | nil => exact ⟨0, rfl⟩
  | cons t ts' ih =>
      by_cases hf : tpAt recs t = full
      · refine ⟨1, ?_⟩
        show (if tpAt recs t = full then [t]
          else t :: takeUntilFull recs full ts') = _
        rw [if_pos hf]
        rfl
      · obtain ⟨k, hk⟩ := ih
        refine ⟨k + 1, ?_⟩
        show (if tpAt recs t = full then [t]
          else t :: takeUntilFull recs full ts') = _
        rw [if_neg hf, hk]
        rfl

theorem curveThresholds_pairwise_lt (recs : List Rec) :
    (curveThresholds recs).Pairwise (· < ·) := by
  obtain ⟨k, hk⟩ := takeUntilFull_eq_take recs (lastTP recs) (thresholdsDesc recs)
  have hsub : List.Sublist (takeUntilFull recs (lastTP recs) (thresholdsDesc recs))
      (thresholdsDesc recs) := by
    rw [hk]
    exact List.take_sublist _ _
  have hp := List.Pairwise.sublist hsub (thresholdsDesc_sorted_gt recs)
  unfold curveThresholds
  rw [List.pairwise_reverse]
  exact hp

theorem curveThresholds_ne_nil (recs : List Rec) (h : recs ≠ []) :
    curveThresholds recs ≠ [] := by
  have hmap : recs.map Prod.snd ≠ [] := by simpa using h
  have hded : (recs.map Prod.snd).dedup ≠ [] := by
    intro hd
    exact hmap ((List.dedup_eq_nil _).mp hd)
  have h1 : thresholdsDesc recs ≠ [] := by
    intro hnil
    apply hded
    apply List.length_eq_zero.mp
    have hl := congrArg List.length hnil
    rw [thresholdsDesc, List.length_insertionSort] at hl
    exact hl
  have h2 : takeUntilFull recs (lastTP recs) (thresholdsDesc recs) ≠ [] := by
    cases hts : thresholdsDesc recs with
    | nil => exact absurd hts h1
    | cons t ts' =>
        show (if tpAt recs t = lastTP recs then [t]
          else t :: takeUntilFull recs (lastTP recs) ts') ≠ []
        split <;> simp
  unfold curveThresholds
  simpa using h2

theorem getD_mono_of_pairwise_lt (l : List ℚ) (hp : l.Pairwise (· < ·))
    (i j : ℕ) (hij : i ≤ j) (hj : j < l.length) :
    l.getD i 0 ≤ l.getD j 0 := by
  rcases eq_or_lt_of_le hij with rfl | hlt
  · exact le_refl _
  · have hi : i < l.length := lt_trans hlt hj
    rw [List.getD_eq_getElem _ _ hi, List.getD_eq_getElem _ _ hj]
    exact le_of_lt (List.pairwise_iff_getElem.mp hp i j hi hj hlt)

/-- C1 (amended). For records with at least one gold-positive label
(otherwise the float code computes NaN recalls), `best_f1` is the
maximum smoothed F1 over the non-terminal curve points; but on ties the
selected point is the one with the SMALLEST threshold among the
maximal-F1 points — `np.argmax` takes the first occurrence and sklearn
returns thresholds in increasing order — not the largest. -/
theorem best_point_max_f1_tie_smallest (recs : List Rec)
    (hpos : 0 < posCount recs) :
    bestF1 recs ∈ f1Scores recs ∧
    (∀ q ∈ f1Scores recs, q ≤ bestF1 recs) ∧
    (∀ j, j < (curveThresholds recs).length →
      (f1Scores recs).getD j 0 = bestF1 recs →
      bestThresh recs ≤ (curveThresholds recs).getD j 0) := by
  have hne : recs ≠ [] := by
    intro h
    rw [h] at hpos
    simp [posCount] at hpos
  have hct : curveThresholds recs ≠ [] := curveThresholds_ne_nil recs hne
  have hf1len : (f1Scores recs).length = (curveThresholds recs).length :=
    List.length_map _ _
  have hfne : f1Scores recs ≠ [] := by
    intro h0
    apply hct
    apply List.length_eq_zero.mp
    rw [← hf1len, h0]
    rfl
  have hidx : bestIdx recs < (f1Scores recs).length := argmaxQ_lt_length _ hfne
  refine ⟨?_, ?_, ?_⟩
  · rw [bestF1, List.getD_eq_getElem _ _ hidx]
    exact List.getElem_mem _
  · intro q hq
    obtain ⟨j, hj, hjq⟩ := List.getElem_of_mem hq
    rw [← hjq, ← List.getD_eq_getElem (f1Scores recs) 0 hj]
    exact getD_le_getD_argmaxQ _ j hj
  · intro j hj hjq
    have hj' : j < (f1Scores recs).length := by
      rw [hf1len]
      exact hj
    have hbi : bestIdx recs ≤ j := by
      by_contra hcon
      push_neg at hcon
      have hlt := getD_lt_of_lt_argmaxQ (f1Scores recs) j hcon
      rw [hjq] at hlt
      exact absurd hlt (lt_irrefl _)
    have hlen2 : bestIdx recs < (curveThresholds recs).length := by
      rw [← hf1len]
      exact hidx
    rw [bestThresh, if_pos hlen2]
    exact getD_mono_of_pairwise_lt _ (curveThresholds_pairwise_lt recs) _ _ hbi hj

/-- The record list on which two distinct thresholds tie for maximal F1:
one positive scoring 5, one positive and two negatives scoring 1. At
threshold 5, precision 1 and recall 1/2; at threshold 1, precision 1/2
and recall 1 — identical smoothed F1. -/
def recsTie : List Rec := [(true, 5), (true, 1), (false, 1), (false, 1)]

/-- Counterexample to C1 as stated: thresholds 1 and 5 both attain the
maximal F1, and the code selects threshold 1, the SMALLEST of the two,
not the largest. -/
theorem best_point_tie_counterexample :
    curveThresholds recsTie = [1, 5] ∧
    curveF1 recsTie 5 = bestF1 recsTie ∧
    bestThresh recsTie = 1 ∧
    bestThresh recsTie ≠ 5 := by
  refine ⟨by decide, by decide, by decide, by decide⟩

/-- Witness for C1 (amended) at the concrete tie input. -/
theorem best_point_witness :
    0 < posCount recsTie ∧
    (bestF1 recsTie ∈ f1Scores recsTie ∧
     (∀ q ∈ f1Scores recsTie, q ≤ bestF1 recsTie) ∧
     (∀ j, j < (curveThresholds recsTie).length →
       (f1Scores recsTie).getD j 0 = bestF1 recsTie →
       bestThresh recsTie ≤ (curveThresholds recsTie).getD j 0)) :=
  ⟨by decide, best_point_max_f1_tie_smallest recsTie (by decide)⟩

end DirtEval
